import Mathlib

/-!
Verification development for the market-loader repository.

The Go code is shallowly embedded: Go strings are lists of characters,
Go `time.Time` values are integers counting nanoseconds since the Unix
epoch in UTC, Go `int64`/`int32` are unbounded integers with explicit
range conditions where the code's behaviour depends on the width, and
the PostgreSQL storage layer is a small explicit state machine exposing
exactly the behaviour the code relies on (range partitions with an
inclusive lower and exclusive upper bound, upsert on conflict, error
codes and messages for missing partitions and constraint violations).
-/

namespace MarketLoader

/-- A Go string, modelled as its list of characters. -/
abbrev GoStr := List Char

/-- The decimal digit character for a digit value (ASCII 48 + d). -/
def digitChar (d : Nat) : Char := Char.ofNat (48 + d)

/-- Whether a character is an ASCII decimal digit. -/
def isDigitChar (c : Char) : Bool := 48 ≤ c.toNat && c.toNat ≤ 57

/-- Numeric value of an ASCII digit character. -/
def charVal (c : Char) : Nat := c.toNat - 48

/-- ASCII whitespace, as trimmed by Go strings.TrimSpace (space, TAB, LF, VT, FF, CR). -/
def isSpaceChar (c : Char) : Bool := c.toNat = 32 || (9 ≤ c.toNat && c.toNat ≤ 13)

/-- Decimal digit characters of a positive natural number, most significant first.
The first argument is recursion fuel; any fuel at least the number itself is enough. -/
def natCharsAux : Nat → Nat → List Char
  | 0, _ => []
  | fuel + 1, n => if n = 0 then [] else natCharsAux fuel (n / 10) ++ [digitChar (n % 10)]

/-- Decimal printing of a natural number, as Go fmt verb d prints a non-negative value. -/
def natChars (n : Nat) : List Char := if n = 0 then ['0'] else natCharsAux n n

/-- Decimal printing of an integer, as Go fmt.Sprintf verb d on an int64. -/
def intChars (i : Int) : List Char :=
  if i < 0 then '-' :: natChars i.natAbs else natChars i.toNat

/-- Go strconv-style parse of an unsigned decimal digit string: fails on the
empty string and on any non-digit character. -/
def parseNatChars (l : List Char) : Option Nat :=
  if l = [] then none
  else if l.all isDigitChar then some (l.foldl (fun a c => a * 10 + charVal c) 0)
  else none

/-- Go strconv.ParseInt with base 10 and the given bit size: an optional sign,
then digits, with the signed range check Go performs for the bit size. -/
def parseIntChars (bitSize : Nat) (l : List Char) : Option Int :=
  let core : Option Int :=
    if l.head? = some '-' then (parseNatChars l.tail).map (fun n : Nat => -(n : Int))
    else if l.head? = some '+' then (parseNatChars l.tail).map (fun n : Nat => (n : Int))
    else (parseNatChars l).map (fun n : Nat => (n : Int))
  match core with
  | none => none
  | some v => if -(2 ^ (bitSize - 1)) ≤ v ∧ v ≤ 2 ^ (bitSize - 1) - 1 then some v else none

/-- Go fmt.Sprintf with format 09d: decimal print, left-padded with zeros to
width 9, the sign counting towards the width. -/
def sprintf09d (i : Int) : List Char :=
  if i < 0 then
    '-' :: (List.replicate (8 - (natChars i.natAbs).length) '0' ++ natChars i.natAbs)
  else
    List.replicate (9 - (natChars i.toNat).length) '0' ++ natChars i.toNat

/-- The trailing-zero stripping loop of money.ConvertMoneyValue: repeatedly
drop the final character while it is the digit zero. -/
def stripTrailingZeros (l : List Char) : List Char :=
  (l.reverse.dropWhile (fun c => c = '0')).reverse

/-- internal/money/money.go ConvertMoneyValue: exact decimal rendering of an
(integer units, nano fraction) pair. -/
def ConvertMoneyValue (units nano : Int) : List Char :=
  if nano = 0 then intChars units
  else
    let nanoStr := sprintf09d nano
    let nanoStr := stripTrailingZeros nanoStr
    if nanoStr.length = 0 then intChars units
    else intChars units ++ '.' :: nanoStr

/-- pb.Quotation: integer units plus a nano-scaled fraction. -/
structure Quotation where
  units : Int
  nano : Int
deriving DecidableEq, Repr

/-- pkg/config constant MaxNanoDigits. -/
def MaxNanoDigits : Nat := 9

/-- Go strings.TrimSpace on ASCII input: drop whitespace from both ends. -/
def trimSpace (l : GoStr) : GoStr :=
  ((l.dropWhile isSpaceChar).reverse.dropWhile isSpaceChar).reverse

/-- The fraction-padding loop of parsePriceString: append zero digits while
the fraction is shorter than 9 characters. -/
def padFractionTo9 (l : List Char) : List Char := l ++ List.replicate (9 - l.length) '0'

/-- internal/arch parsePriceString: exact parse of a decimal price string into
a Quotation, defaulting malformed parts to zero instead of failing. -/
def parsePriceString (price : GoStr) : Quotation :=
  let priceStr := trimSpace price
  match priceStr.findIdx? (fun c => c = '.') with
  | none =>
    match parseIntChars 64 priceStr with
    | some units => ⟨units, 0⟩
    | none => ⟨0, 0⟩
  | some dotIndex =>
    let unitsStr := priceStr.take dotIndex
    let fractionStr := priceStr.drop (dotIndex + 1)
    match parseIntChars 64 unitsStr with
    | none => ⟨0, 0⟩
    | some units =>
      if fractionStr.length = 0 then ⟨units, 0⟩
      else
        let padded := padFractionTo9 fractionStr
        let clipped := if MaxNanoDigits < padded.length then padded.take MaxNanoDigits else padded
        match parseIntChars 32 clipped with
        | none => ⟨units, 0⟩
        | some nano => ⟨units, nano⟩

/-! Basic facts about digit characters and the decimal printer. -/

theorem charVal_digitChar {d : Nat} (h : d < 10) : charVal (digitChar d) = d := by
  interval_cases d <;> decide

theorem isDigitChar_digitChar {d : Nat} (h : d < 10) : isDigitChar (digitChar d) = true := by
  interval_cases d <;> decide

theorem digitChar_ne_zero {d : Nat} (h0 : 0 < d) (h : d < 10) : digitChar d ≠ '0' := by
  interval_cases d <;> decide

theorem isDigitChar_not_space {c : Char} (h : isDigitChar c = true) : isSpaceChar c = false := by
  simp only [isDigitChar, Bool.and_eq_true, decide_eq_true_eq] at h
  simp only [isSpaceChar, Bool.or_eq_false_iff, Bool.and_eq_false_iff, decide_eq_false_iff_not]
  omega

theorem isDigitChar_ne_sign {c : Char} (h : isDigitChar c = true) : c ≠ '-' ∧ c ≠ '+' := by
  refine ⟨?_, ?_⟩ <;> rintro rfl <;> exact absurd h (by decide)

theorem isDigitChar_ne_dot {c : Char} (h : isDigitChar c = true) : c ≠ '.' := by
  rintro rfl; exact absurd h (by decide)

theorem natCharsAux_zero (fuel : Nat) : natCharsAux fuel 0 = [] := by
  cases fuel <;> simp [natCharsAux]

theorem natCharsAux_all_digits (fuel : Nat) :
    ∀ n, ∀ c ∈ natCharsAux fuel n, isDigitChar c = true := by
  induction fuel with
  | zero => intro n c hc; simp [natCharsAux] at hc
  | succ fuel ih =>
    intro n c hc
    by_cases hn : n = 0
    · subst hn; simp [natCharsAux] at hc
    · simp only [natCharsAux, hn, if_false, List.mem_append, List.mem_singleton] at hc
      rcases hc with hc | hc
      · exact ih _ _ hc
      · subst hc; exact isDigitChar_digitChar (Nat.mod_lt _ (by norm_num))

theorem natCharsAux_ne_nil (fuel : Nat) {n : Nat} (h0 : 0 < n) (hf : n ≤ fuel) :
    natCharsAux fuel n ≠ [] := by
  cases fuel with
  | zero => omega
  | succ fuel =>
    have hn : n ≠ 0 := by omega
    simp [natCharsAux, hn]

theorem natCharsAux_exists_ne_zero (fuel : Nat) :
    ∀ n, 0 < n → n ≤ fuel → ∃ c ∈ natCharsAux fuel n, c ≠ '0' := by
  induction fuel with
  | zero => intro n h0 hf; omega
  | succ fuel ih =>
    intro n h0 hf
    have hn : n ≠ 0 := by omega
    by_cases hd : n / 10 = 0
    · have hlt : n < 10 := by omega
      refine ⟨digitChar (n % 10), ?_, ?_⟩
      · simp [natCharsAux, hn, hd, natCharsAux_zero]
      · have : n % 10 = n := Nat.mod_eq_of_lt hlt
        rw [this]; exact digitChar_ne_zero h0 hlt
    · have hdle : n / 10 ≤ fuel := by
        have := Nat.div_lt_self h0 (by norm_num : (1 : Nat) < 10)
        omega
      obtain ⟨c, hc, hcz⟩ := ih (n / 10) (by omega) hdle
      refine ⟨c, ?_, hcz⟩
      simp only [natCharsAux, hn, if_false, List.mem_append]
      exact Or.inl hc

theorem natCharsAux_foldl (fuel : Nat) :
    ∀ n acc, n ≤ fuel →
      (natCharsAux fuel n).foldl (fun a c => a * 10 + charVal c) acc
        = acc * 10 ^ (natCharsAux fuel n).length + n := by
  induction fuel with
  | zero => intro n acc h; interval_cases n; simp [natCharsAux]
  | succ fuel ih =>
    intro n acc h
    by_cases hn : n = 0
    · subst hn; simp [natCharsAux]
    · have hdle : n / 10 ≤ fuel := by
        have := Nat.div_lt_self (by omega : 0 < n) (by norm_num : (1 : Nat) < 10)
        omega
      have hmod : n % 10 < 10 := Nat.mod_lt _ (by norm_num)
      simp only [natCharsAux, hn, if_false, List.foldl_append, List.length_append,
        List.foldl_cons, List.foldl_nil, List.length_singleton]
      rw [ih _ acc hdle, charVal_digitChar hmod, pow_succ]
      have hdm : n / 10 * 10 + n % 10 = n := by omega
      calc (acc * 10 ^ (natCharsAux fuel (n / 10)).length + n / 10) * 10 + n % 10
          = acc * (10 ^ (natCharsAux fuel (n / 10)).length * 10)
            + (n / 10 * 10 + n % 10) := by ring
        _ = acc * (10 ^ (natCharsAux fuel (n / 10)).length * 10) + n := by rw [hdm]

theorem natCharsAux_length_le (fuel : Nat) :
    ∀ n k, n ≤ fuel → n < 10 ^ k → (natCharsAux fuel n).length ≤ k := by
  induction fuel with
  | zero => intro n k h _; interval_cases n; simp [natCharsAux]
  | succ fuel ih =>
    intro n k h hk
    by_cases hn : n = 0
    · subst hn; simp [natCharsAux]
    · cases k with
      | zero => simp at hk; omega
      | succ k =>
        have hdle : n / 10 ≤ fuel := by
          have := Nat.div_lt_self (by omega : 0 < n) (by norm_num : (1 : Nat) < 10)
          omega
        have hdlt : n / 10 < 10 ^ k := by
          rw [Nat.div_lt_iff_lt_mul (by norm_num : 0 < 10)]
          calc n < 10 ^ (k + 1) := hk
            _ = 10 ^ k * 10 := pow_succ 10 k
        have := ih (n / 10) k hdle hdlt
        simp only [natCharsAux, hn, if_false, List.length_append, List.length_singleton]
        omega

/-! Facts about natChars and the parsers. -/

theorem natChars_all_digits (n : Nat) : ∀ c ∈ natChars n, isDigitChar c = true := by
  intro c hc
  by_cases hn : n = 0
  · subst hn; simp [natChars] at hc
    subst hc; decide
  · simp only [natChars, hn, if_false] at hc
    exact natCharsAux_all_digits n n c hc

theorem natChars_ne_nil (n : Nat) : natChars n ≠ [] := by
  by_cases hn : n = 0
  · subst hn; simp [natChars]
  · simp only [natChars, hn, if_false]
    exact natCharsAux_ne_nil n (by omega) le_rfl

theorem natChars_length_le {n k : Nat} (hk : 0 < k) (h : n < 10 ^ k) :
    (natChars n).length ≤ k := by
  by_cases hn : n = 0
  · subst hn; simpa [natChars] using hk
  · simp only [natChars, hn, if_false]
    exact natCharsAux_length_le n n k le_rfl h

theorem foldl_replicate_zeros (k : Nat) :
    (List.replicate k '0').foldl (fun a c => a * 10 + charVal c) 0 = 0 := by
  induction k with
  | zero => rfl
  | succ k ih => simpa [List.replicate_succ] using ih

theorem parseNatChars_zeros_natChars (k n : Nat) :
    parseNatChars (List.replicate k '0' ++ natChars n) = some n := by
  have hne : List.replicate k '0' ++ natChars n ≠ [] := by
    intro h
    exact natChars_ne_nil n (List.append_eq_nil.mp h).2
  have hall : (List.replicate k '0' ++ natChars n).all isDigitChar = true := by
    rw [List.all_eq_true]
    intro c hc
    rcases List.mem_append.mp hc with hc | hc
    · have := List.eq_of_mem_replicate hc
      subst this; decide
    · exact natChars_all_digits n c hc
  rw [parseNatChars, if_neg hne, if_pos hall, List.foldl_append, foldl_replicate_zeros]
  by_cases hn : n = 0
  · subst hn; simp [natChars]; decide
  · simp only [natChars, hn, if_false]
    rw [natCharsAux_foldl n n 0 le_rfl]
    simp

theorem parseNatChars_natChars (n : Nat) : parseNatChars (natChars n) = some n := by
  simpa using parseNatChars_zeros_natChars 0 n

theorem parseIntChars_digits (bitSize : Nat) (l : List Char) (n : Nat)
    (hhead : ∀ c, l.head? = some c → isDigitChar c = true)
    (hparse : parseNatChars l = some n)
    (hr1 : -(2 ^ (bitSize - 1)) ≤ (n : Int)) (hr2 : (n : Int) ≤ 2 ^ (bitSize - 1) - 1) :
    parseIntChars bitSize l = some (n : Int) := by
  have hne : l ≠ [] := by
    intro h
    rw [h] at hparse
    simp [parseNatChars] at hparse
  obtain ⟨c, t, hct⟩ : ∃ c t, l = c :: t := by
    cases hc : l with
    | nil => exact absurd hc hne
    | cons c t => exact ⟨c, t, rfl⟩
  have hcdig : isDigitChar c = true := hhead c (by rw [hct]; rfl)
  have hsign := isDigitChar_ne_sign hcdig
  have hheadc : l.head? = some c := by rw [hct]; rfl
  have hne1 : ¬(l.head? = some '-') := by rw [hheadc]; simpa using hsign.1
  have hne2 : ¬(l.head? = some '+') := by rw [hheadc]; simpa using hsign.2
  have hcore :
      (if l.head? = some '-' then
        (parseNatChars l.tail).map (fun n : Nat => -(n : Int))
      else if l.head? = some '+' then
        (parseNatChars l.tail).map (fun n : Nat => (n : Int))
      else (parseNatChars l).map (fun n : Nat => (n : Int))) = some (n : Int) := by
    rw [if_neg hne1, if_neg hne2, hparse]; rfl
  rw [parseIntChars]
  simp only [hcore]
  rw [if_pos ⟨hr1, hr2⟩]

theorem intChars_mem (i : Int) : ∀ c ∈ intChars i, c = '-' ∨ isDigitChar c = true := by
  intro c hc
  by_cases hi : i < 0
  · simp only [intChars, if_pos hi, List.mem_cons] at hc
    rcases hc with hc | hc
    · exact Or.inl hc
    · exact Or.inr (natChars_all_digits _ c hc)
  · simp only [intChars, hi, if_false] at hc
    exact Or.inr (natChars_all_digits _ c hc)

theorem intChars_ne_nil (i : Int) : intChars i ≠ [] := by
  by_cases hi : i < 0
  · simp [intChars, hi]
  · simp only [intChars, hi, if_false]
    exact natChars_ne_nil _

theorem parseIntChars_intChars (bitSize : Nat) (i : Int)
    (h1 : -(2 ^ (bitSize - 1)) ≤ i) (h2 : i ≤ 2 ^ (bitSize - 1) - 1) :
    parseIntChars bitSize (intChars i) = some i := by
  have hcore :
      (if (intChars i).head? = some '-' then
        (parseNatChars (intChars i).tail).map (fun n : Nat => -(n : Int))
      else if (intChars i).head? = some '+' then
        (parseNatChars (intChars i).tail).map (fun n : Nat => (n : Int))
      else (parseNatChars (intChars i)).map (fun n : Nat => (n : Int))) = some i := by
    by_cases hi : i < 0
    · have hhead : (intChars i).head? = some '-' := by simp [intChars, hi]
      have htail : (intChars i).tail = natChars i.natAbs := by simp [intChars, hi]
      simp only [hhead, htail, parseNatChars_natChars, Option.map_some', ite_true,
        Option.some.injEq]
      omega
    · have hpos : intChars i = natChars i.toNat := by simp [intChars, hi]
      obtain ⟨c, l', hcl⟩ : ∃ c l', natChars i.toNat = c :: l' := by
        cases h : natChars i.toNat with
        | nil => exact absurd h (natChars_ne_nil _)
        | cons c l' => exact ⟨c, l', rfl⟩
      have hcdig : isDigitChar c = true :=
        natChars_all_digits i.toNat c (by rw [hcl]; exact List.mem_cons_self _ _)
      have hsign := isDigitChar_ne_sign hcdig
      have hhead : (intChars i).head? = some c := by rw [hpos, hcl]; rfl
      have hne1 : ¬((intChars i).head? = some '-') := by
        rw [hhead]; simpa using hsign.1
      have hne2 : ¬((intChars i).head? = some '+') := by
        rw [hhead]; simpa using hsign.2
      rw [if_neg hne1, if_neg hne2, hpos, parseNatChars_natChars]
      simp only [Option.map_some', Option.some.injEq]
      omega
  rw [parseIntChars]
  simp only [hcore]
  rw [if_pos ⟨h1, h2⟩]

/-! Facts about trimming, the dot search, and trailing-zero stripping. -/

theorem dropWhile_eq_self_of_false {p : Char → Bool} {l : List Char}
    (h : ∀ c ∈ l, p c = false) : l.dropWhile p = l := by
  cases l with
  | nil => rfl
  | cons a t =>
    rw [List.dropWhile_cons, if_neg]
    rw [h a (List.mem_cons_self a t)]
    simp

theorem trimSpace_eq_self {l : GoStr} (h : ∀ c ∈ l, isSpaceChar c = false) :
    trimSpace l = l := by
  rw [trimSpace, dropWhile_eq_self_of_false h, dropWhile_eq_self_of_false, List.reverse_reverse]
  intro c hc
  exact h c (List.mem_reverse.mp hc)

theorem findIdx?_append_cons (p : Char → Bool) (l1 : List Char) (x : Char) (l2 : List Char)
    (h1 : ∀ c ∈ l1, p c = false) (hx : p x = true) :
    ∀ i, List.findIdx? p (l1 ++ x :: l2) i = some (l1.length + i) := by
  induction l1 with
  | nil => intro i; simp [List.findIdx?_cons, hx]
  | cons a t ih =>
    intro i
    have ha : p a = false := h1 a (List.mem_cons_self a t)
    have ht : ∀ c ∈ t, p c = false := fun c hc => h1 c (List.mem_cons_of_mem a hc)
    rw [List.cons_append, List.findIdx?_cons, ha]
    simp only [Bool.false_eq_true, if_false]
    rw [ih ht (i + 1)]
    simp only [List.length_cons, Option.some.injEq]
    omega

theorem findIdx?_eq_none (p : Char → Bool) (l : List Char)
    (h : ∀ c ∈ l, p c = false) : ∀ i, List.findIdx? p l i = none := by
  induction l with
  | nil => intro i; rfl
  | cons a t ih =>
    intro i
    have ha : p a = false := h a (List.mem_cons_self a t)
    rw [List.findIdx?_cons, ha]
    simp only [Bool.false_eq_true, if_false]
    exact ih (fun c hc => h c (List.mem_cons_of_mem a hc)) (i + 1)

theorem stripTrailingZeros_append (l : List Char) :
    stripTrailingZeros l
      ++ List.replicate (l.length - (stripTrailingZeros l).length) '0' = l := by
  have hsplit :
      l.reverse.takeWhile (fun c => c = '0') ++ l.reverse.dropWhile (fun c => c = '0')
        = l.reverse := List.takeWhile_append_dropWhile _ _
  have htw : l.reverse.takeWhile (fun c => c = '0')
      = List.replicate (l.reverse.takeWhile (fun c => c = '0')).length '0' := by
    rw [List.eq_replicate_iff]
    refine ⟨rfl, fun b hb => ?_⟩
    have := List.mem_takeWhile_imp hb
    simpa using this
  have hlen : l.length
      = (stripTrailingZeros l).length + (l.reverse.takeWhile (fun c => c = '0')).length := by
    have := congrArg List.length hsplit
    simp only [List.length_append, List.length_reverse] at this
    simp only [stripTrailingZeros, List.length_reverse]
    omega
  calc stripTrailingZeros l ++ List.replicate (l.length - (stripTrailingZeros l).length) '0'
      = stripTrailingZeros l
          ++ List.replicate (l.reverse.takeWhile (fun c => c = '0')).length '0' := by
        rw [hlen]; simp
    _ = (l.reverse.dropWhile (fun c => c = '0')).reverse
          ++ (l.reverse.takeWhile (fun c => c = '0')).reverse := by
        rw [stripTrailingZeros, htw, List.reverse_replicate]
        simp
    _ = (l.reverse.takeWhile (fun c => c = '0')
          ++ l.reverse.dropWhile (fun c => c = '0')).reverse := by
        rw [List.reverse_append]
    _ = l := by rw [hsplit, List.reverse_reverse]

theorem stripTrailingZeros_eq_nil_iff (l : List Char) :
    stripTrailingZeros l = [] ↔ ∀ c ∈ l, c = '0' := by
  rw [stripTrailingZeros, List.reverse_eq_nil_iff, List.dropWhile_eq_nil_iff]
  constructor
  · intro h c hc
    have := h c (List.mem_reverse.mpr hc)
    simpa using this
  · intro h c hc
    have := h c (List.mem_reverse.mp hc)
    simpa using this

theorem stripTrailingZeros_length_le (l : List Char) :
    (stripTrailingZeros l).length ≤ l.length := by
  have := congrArg List.length (stripTrailingZeros_append l)
  simp only [List.length_append, List.length_replicate] at this
  omega

/-! The decimal codec round trip. -/

theorem parseIntChars32_pad {n : Nat} (hlt : n < 1000000000) :
    parseIntChars 32 (List.replicate (9 - (natChars n).length) '0' ++ natChars n)
      = some (n : Int) := by
  set l := List.replicate (9 - (natChars n).length) '0' ++ natChars n with hl
  have hne : l ≠ [] := fun h => natChars_ne_nil n (List.append_eq_nil.mp h).2
  obtain ⟨c, t, hct⟩ : ∃ c t, l = c :: t := by
    cases hc : l with
    | nil => exact absurd hc hne
    | cons c t => exact ⟨c, t, rfl⟩
  have hcdig : isDigitChar c = true := by
    have hcmem : c ∈ l := by rw [hct]; exact List.mem_cons_self c t
    rcases List.mem_append.mp hcmem with hc | hc
    · rw [List.eq_of_mem_replicate hc]; decide
    · exact natChars_all_digits n c hc
  have hsign := isDigitChar_ne_sign hcdig
  have hhead : l.head? = some c := by rw [hct]; rfl
  have hne1 : ¬(l.head? = some '-') := by rw [hhead]; simpa using hsign.1
  have hne2 : ¬(l.head? = some '+') := by rw [hhead]; simpa using hsign.2
  have hparse : parseNatChars l = some n := parseNatChars_zeros_natChars _ n
  have hcore :
      (if l.head? = some '-' then
        (parseNatChars l.tail).map (fun n : Nat => -(n : Int))
      else if l.head? = some '+' then
        (parseNatChars l.tail).map (fun n : Nat => (n : Int))
      else (parseNatChars l).map (fun n : Nat => (n : Int))) = some (n : Int) := by
    rw [if_neg hne1, if_neg hne2, hparse]; rfl
  rw [parseIntChars]
  simp only [hcore]
  rw [if_pos]
  constructor <;> norm_num <;> omega

theorem natChars_not_all_zero {n : Nat} (h0 : 0 < n) : ¬ ∀ c ∈ natChars n, c = '0' := by
  intro hall
  have hn : n ≠ 0 := by omega
  obtain ⟨c, hc, hcz⟩ := natCharsAux_exists_ne_zero n n h0 le_rfl
  exact hcz (hall c (by simpa [natChars, hn] using hc))

/-- C2: decoding the encoded decimal text returns the original pair — the
trailing-zero stripping done by the encoder is undone by the decoder's
zero-padding of the fractional part.  The units value ranges over Go int64,
the nano value over the documented interval from 0 inclusive to one billion
exclusive. -/
theorem parsePriceString_ConvertMoneyValue (units nano : Int)
    (hu1 : -9223372036854775808 ≤ units) (hu2 : units ≤ 9223372036854775807)
    (hn1 : 0 ≤ nano) (hn2 : nano < 1000000000) :
    parsePriceString (ConvertMoneyValue units nano) = ⟨units, nano⟩ := by
  have hunits : parseIntChars 64 (intChars units) = some units := by
    refine parseIntChars_intChars 64 units ?_ ?_ <;> norm_num <;> omega
  have humem : ∀ c ∈ intChars units, isSpaceChar c = false := by
    intro c hc
    rcases intChars_mem units c hc with h | h
    · subst h; decide
    · exact isDigitChar_not_space h
  have hudot : ∀ c ∈ intChars units, (fun c => decide (c = '.')) c = false := by
    intro c hc
    rcases intChars_mem units c hc with h | h
    · subst h; decide
    · exact decide_eq_false (isDigitChar_ne_dot h)
  by_cases hnano : nano = 0
  · subst hnano
    have hcmv : ConvertMoneyValue units 0 = intChars units := by
      simp [ConvertMoneyValue]
    rw [hcmv, parsePriceString]
    have htrim : trimSpace (intChars units) = intChars units := trimSpace_eq_self humem
    simp only [htrim]
    rw [findIdx?_eq_none _ _ hudot 0, hunits]
  · have hN0 : 0 < nano.toNat := by omega
    have hNlt : nano.toNat < 1000000000 := by omega
    set N := nano.toNat with hNdef
    have hsprint : sprintf09d nano
        = List.replicate (9 - (natChars N).length) '0' ++ natChars N := by
      rw [sprintf09d, if_neg (by omega)]
    set P := List.replicate (9 - (natChars N).length) '0' ++ natChars N with hPdef
    have hNlen : (natChars N).length ≤ 9 := by
      refine natChars_length_le (by norm_num) ?_
      norm_num
      omega
    have hPlen : P.length = 9 := by
      rw [hPdef]
      simp only [List.length_append, List.length_replicate]
      omega
    have hPdigits : ∀ c ∈ P, isDigitChar c = true := by
      intro c hc
      rcases List.mem_append.mp hc with hc | hc
      · rw [List.eq_of_mem_replicate hc]; decide
      · exact natChars_all_digits N c hc
    set S := stripTrailingZeros P with hSdef
    have hSne : S ≠ [] := by
      intro hnil
      have hall : ∀ c ∈ P, c = '0' := (stripTrailingZeros_eq_nil_iff P).mp hnil
      exact natChars_not_all_zero hN0
        (fun c hc => hall c (List.mem_append.mpr (Or.inr hc)))
    have hSP : S ++ List.replicate (9 - S.length) '0' = P := by
      have := stripTrailingZeros_append P
      rw [hPlen] at this
      exact this
    have hSmem : ∀ c ∈ S, c ∈ P := by
      intro c hc
      rw [← hSP]
      exact List.mem_append.mpr (Or.inl hc)
    have hcmv : ConvertMoneyValue units nano = intChars units ++ '.' :: S := by
      rw [ConvertMoneyValue, if_neg hnano]
      simp only [hsprint, ← hPdef, ← hSdef]
      rw [if_neg (by simpa using hSne)]
    rw [hcmv, parsePriceString]
    have htrim : trimSpace (intChars units ++ '.' :: S) = intChars units ++ '.' :: S := by
      refine trimSpace_eq_self ?_
      intro c hc
      rcases List.mem_append.mp hc with hc | hc
      · exact humem c hc
      · rcases List.mem_cons.mp hc with hc | hc
        · subst hc; decide
        · exact isDigitChar_not_space (hPdigits c (hSmem c hc))
    simp only [htrim]
    have hfind : List.findIdx? (fun c => decide (c = '.'))
        (intChars units ++ '.' :: S) 0 = some ((intChars units).length + 0) :=
      findIdx?_append_cons _ _ '.' S hudot (by decide) 0
    rw [Nat.add_zero] at hfind
    have hdrop : (intChars units ++ '.' :: S).drop ((intChars units).length + 1) = S := by
      have hsplit : intChars units ++ '.' :: S = (intChars units ++ ['.']) ++ S := by simp
      have hlen1 : (intChars units ++ ['.']).length = (intChars units).length + 1 := by simp
      rw [hsplit, ← hlen1, List.drop_left]
    have hpad : padFractionTo9 S = P := by
      rw [padFractionTo9]
      exact hSP
    have hclip : ¬(MaxNanoDigits < P.length) := by
      rw [hPlen, MaxNanoDigits]
      omega
    have h32 : parseIntChars 32 P = some ((N : Nat) : Int) := parseIntChars32_pad hNlt
    have hcast : ((N : Nat) : Int) = nano := by omega
    simp only [hfind, List.take_left, hdrop, hunits]
    rw [if_neg (by simpa using hSne)]
    simp only [hpad]
    rw [if_neg hclip, h32, hcast]

/-! Encoder shape and decoder totality. -/

/-- The nano value the decoder assigns to a digit-list fraction: pad with zero
digits to 9, truncate to 9, read as a decimal number. -/
def fractionNano (frac : List Nat) : Nat :=
  ((frac ++ List.replicate (9 - frac.length) 0).take 9).foldl (fun a d => a * 10 + d) 0

theorem foldl_map_digitChar (ds : List Nat) :
    ∀ acc, (∀ d ∈ ds, d < 10) →
      (ds.map digitChar).foldl (fun a c => a * 10 + charVal c) acc
        = ds.foldl (fun a d => a * 10 + d) acc := by
  induction ds with
  | nil => intro acc _; rfl
  | cons d tl ih =>
    intro acc h
    simp only [List.map_cons, List.foldl_cons]
    rw [charVal_digitChar (h d (List.mem_cons_self d tl))]
    exact ih _ (fun x hx => h x (List.mem_cons_of_mem d hx))

theorem foldl_digits_lt (ds : List Nat) :
    ∀ acc, (∀ d ∈ ds, d < 10) →
      ds.foldl (fun a d => a * 10 + d) acc < (acc + 1) * 10 ^ ds.length := by
  induction ds with
  | nil => intro acc _; simpa using Nat.lt_succ_self acc
  | cons d tl ih =>
    intro acc h
    have hd : d < 10 := h d (List.mem_cons_self d tl)
    have := ih (acc * 10 + d) (fun x hx => h x (List.mem_cons_of_mem d hx))
    simp only [List.foldl_cons, List.length_cons]
    calc List.foldl (fun a d => a * 10 + d) (acc * 10 + d) tl
        < (acc * 10 + d + 1) * 10 ^ tl.length := this
      _ ≤ ((acc + 1) * 10) * 10 ^ tl.length := by
          have : acc * 10 + d + 1 ≤ (acc + 1) * 10 := by omega
          exact Nat.mul_le_mul_right _ this
      _ = (acc + 1) * 10 ^ (tl.length + 1) := by ring

/-- C7: shape of the encoder output — integer alone for a zero fraction, and
for a nonzero in-range fraction the stripped 9-digit expansion is never empty,
so the dotted form is always emitted; with the spec's three examples. -/
theorem ConvertMoneyValue_shape (units nano : Int)
    (hn1 : 0 ≤ nano) (hn2 : nano < 1000000000) :
    (nano = 0 → ConvertMoneyValue units nano = intChars units) ∧
    (nano ≠ 0 →
      stripTrailingZeros (sprintf09d nano) ≠ [] ∧
      ConvertMoneyValue units nano
        = intChars units ++ '.' :: stripTrailingZeros (sprintf09d nano)) ∧
    ConvertMoneyValue 272 269999999 = ('2' :: '7' :: '2' :: '.' :: "269999999".data) ∧
    ConvertMoneyValue 272 270000000 = ('2' :: '7' :: '2' :: '.' :: "27".data) ∧
    ConvertMoneyValue 5 0 = ['5'] := by
  refine ⟨fun h => by simp [ConvertMoneyValue, h], fun hnano => ?_, by decide, by decide, by decide⟩
  have hN0 : 0 < nano.toNat := by omega
  have hsprint : sprintf09d nano
      = List.replicate (9 - (natChars nano.toNat).length) '0' ++ natChars nano.toNat := by
    rw [sprintf09d, if_neg (by omega)]
  have hSne : stripTrailingZeros (sprintf09d nano) ≠ [] := by
    rw [hsprint]
    intro hnil
    have hall := (stripTrailingZeros_eq_nil_iff _).mp hnil
    exact natChars_not_all_zero hN0
      (fun c hc => hall c (List.mem_append.mpr (Or.inr hc)))
  refine ⟨hSne, ?_⟩
  rw [ConvertMoneyValue, if_neg hnano]
  show (if (stripTrailingZeros (sprintf09d nano)).length = 0 then intChars units
    else intChars units ++ '.' :: stripTrailingZeros (sprintf09d nano)) = _
  rw [if_neg (by simpa using hSne)]

/-- C8: the decoder is total — for any well-formed fractional input of any
length it zero-pads or truncates to exactly 9 digits, and malformed inputs
produce a zero-magnitude result rather than an error; shown on a short
fraction, a long fraction, an empty fraction, and two malformed strings. -/
theorem parsePriceString_total (units : Int) (frac : List Nat)
    (hu1 : -9223372036854775808 ≤ units) (hu2 : units ≤ 9223372036854775807)
    (hfrac : frac ≠ []) (hdig : ∀ d ∈ frac, d < 10) :
    parsePriceString (intChars units ++ '.' :: frac.map digitChar)
      = ⟨units, fractionNano frac⟩ ∧
    parsePriceString "1.5".data = ⟨1, 500000000⟩ ∧
    parsePriceString "1.1234567891".data = ⟨1, 123456789⟩ ∧
    parsePriceString "72.".data = ⟨72, 0⟩ ∧
    parsePriceString "abc".data = ⟨0, 0⟩ ∧
    parsePriceString "12x.5".data = ⟨0, 0⟩ := by
  refine ⟨?_, by decide, by decide, by decide, by decide, by decide⟩
  have hunits : parseIntChars 64 (intChars units) = some units := by
    refine parseIntChars_intChars 64 units ?_ ?_ <;> norm_num <;> omega
  have humem : ∀ c ∈ intChars units, isSpaceChar c = false := by
    intro c hc
    rcases intChars_mem units c hc with h | h
    · subst h; decide
    · exact isDigitChar_not_space h
  have hudot : ∀ c ∈ intChars units, (fun c => decide (c = '.')) c = false := by
    intro c hc
    rcases intChars_mem units c hc with h | h
    · subst h; decide
    · exact decide_eq_false (isDigitChar_ne_dot h)
  set F := frac.map digitChar with hFdef
  have hFdigits : ∀ c ∈ F, isDigitChar c = true := by
    intro c hc
    obtain ⟨d, hd, rfl⟩ := List.mem_map.mp hc
    exact isDigitChar_digitChar (hdig d hd)
  have htrim : trimSpace (intChars units ++ '.' :: F) = intChars units ++ '.' :: F := by
    refine trimSpace_eq_self ?_
    intro c hc
    rcases List.mem_append.mp hc with hc | hc
    · exact humem c hc
    · rcases List.mem_cons.mp hc with hc | hc
      · subst hc; decide
      · exact isDigitChar_not_space (hFdigits c hc)
  rw [parsePriceString]
  simp only [htrim]
  have hfind : List.findIdx? (fun c => decide (c = '.'))
      (intChars units ++ '.' :: F) 0 = some ((intChars units).length + 0) :=
    findIdx?_append_cons _ _ '.' F hudot (by decide) 0
  rw [Nat.add_zero] at hfind
  have hdrop : (intChars units ++ '.' :: F).drop ((intChars units).length + 1) = F := by
    have hsplit : intChars units ++ '.' :: F = (intChars units ++ ['.']) ++ F := by simp
    have hlen1 : (intChars units ++ ['.']).length = (intChars units).length + 1 := by simp
    rw [hsplit, ← hlen1, List.drop_left]
  have hFne : ¬(F.length = 0) := by
    simp only [List.length_eq_zero]
    intro h
    exact hfrac (List.map_eq_nil_iff.mp (hFdef ▸ h))
  have hmapP : padFractionTo9 F = (frac ++ List.replicate (9 - frac.length) 0).map digitChar := by
    rw [padFractionTo9, List.map_append, List.map_replicate]
    have : digitChar 0 = '0' := by decide
    rw [this, hFdef, List.length_map]
  have hclip : (if MaxNanoDigits < (padFractionTo9 F).length
        then (padFractionTo9 F).take MaxNanoDigits else padFractionTo9 F)
      = ((frac ++ List.replicate (9 - frac.length) 0).take 9).map digitChar := by
    rw [hmapP, ← List.map_take]
    by_cases hlong : 9 < frac.length
    · rw [if_pos]
      · rw [MaxNanoDigits]
      · rw [MaxNanoDigits, List.length_map, List.length_append, List.length_replicate]
        omega
    · rw [if_neg]
      · rw [List.take_of_length_le]
        rw [List.length_append, List.length_replicate]
        omega
      · rw [MaxNanoDigits, List.length_map, List.length_append, List.length_replicate]
        omega
  set D := (frac ++ List.replicate (9 - frac.length) 0).take 9 with hDdef
  have hDdig : ∀ d ∈ D, d < 10 := by
    intro d hd
    have hd' := List.mem_of_mem_take hd
    rcases List.mem_append.mp hd' with h | h
    · exact hdig d h
    · rw [List.eq_of_mem_replicate h]; omega
  have hDlen : D.length ≤ 9 := by
    rw [hDdef]
    exact List.length_take_le 9 _
  have hDval : fractionNano frac = D.foldl (fun a d => a * 10 + d) 0 := rfl
  have hDne : D ≠ [] := by
    rw [hDdef]
    intro h
    have := congrArg List.length h
    simp only [List.length_take, List.length_nil, List.length_append,
      List.length_replicate] at this
    have hfl : 0 < frac.length := List.length_pos.mpr hfrac
    omega
  have hbound : fractionNano frac < 1000000000 := by
    have hlt := foldl_digits_lt D 0 hDdig
    rw [← hDval] at hlt
    have hpow : 10 ^ D.length ≤ 10 ^ 9 := Nat.pow_le_pow_right (by norm_num) hDlen
    norm_num at hlt
    calc fractionNano frac < 10 ^ D.length := hlt
      _ ≤ 10 ^ 9 := hpow
      _ = 1000000000 := by norm_num
  have hparseD : parseIntChars 32 (D.map digitChar)
      = some ((fractionNano frac : Nat) : Int) := by
    have hne : D.map digitChar ≠ [] := by
      intro h
      exact hDne (List.map_eq_nil_iff.mp h)
    have hall : (D.map digitChar).all isDigitChar = true := by
      rw [List.all_eq_true]
      intro c hc
      obtain ⟨d, hd, rfl⟩ := List.mem_map.mp hc
      exact isDigitChar_digitChar (hDdig d hd)
    have hparse : parseNatChars (D.map digitChar) = some (fractionNano frac) := by
      rw [parseNatChars, if_neg hne, if_pos hall, foldl_map_digitChar D 0 hDdig, hDval]
    refine parseIntChars_digits 32 _ _ ?_ hparse ?_ ?_
    · intro c hc
      obtain ⟨d, hd, rfl⟩ := List.mem_map.mp (List.mem_of_mem_head? hc)
      exact isDigitChar_digitChar (hDdig d hd)
    · norm_num; omega
    · norm_num; omega
  simp only [hfind, List.take_left, hdrop, hunits]
  rw [if_neg hFne]
  simp only [hclip, ← hDdef, hparseD]

/-!
The time model: Go time.Time values in UTC are integers counting
nanoseconds since the Unix epoch.  The proleptic-Gregorian conversions
of Go's time package are modelled with the standard civil-calendar
day-count algorithm, written with floor division (every divisor below
is positive, so Lean's integer division is floor division here).
-/

/-- Nanoseconds in one second (Go time.Second). -/
def nsPerSecond : Int := 1000000000

/-- Nanoseconds in one minute (Go time.Minute). -/
def nsPerMinute : Int := 60000000000

/-- Nanoseconds in one hour (Go time.Hour). -/
def nsPerHour : Int := 3600000000000

/-- Nanoseconds in one day. -/
def nsPerDay : Int := 86400000000000

/-- Days from the Unix epoch to the given year-month-day of the proleptic
Gregorian calendar (UTC), as Go time.Date computes dates. -/
def daysFromCivil (y m d : Int) : Int :=
  let yAdj := if m ≤ 2 then y - 1 else y
  let era := yAdj / 400
  let yoe := yAdj - era * 400
  let mp := if 2 < m then m - 3 else m + 9
  let doy := (153 * mp + 2) / 5 + d - 1
  let doe := yoe * 365 + yoe / 4 - yoe / 100 + doy
  era * 146097 + doe - 719468

/-- Year, month and day of the civil date holding the given day number
(days since the Unix epoch), inverse of daysFromCivil. -/
def civilFromDays (z0 : Int) : Int × Int × Int :=
  let z := z0 + 719468
  let era := z / 146097
  let doe := z - era * 146097
  let yoe := (doe - doe / 1460 + doe / 36524 - doe / 146096) / 365
  let y := yoe + era * 400
  let doy := doe - (365 * yoe + yoe / 4 - yoe / 100)
  let mp := (5 * doy + 2) / 153
  let d := doy - (153 * mp + 2) / 5 + 1
  let m := if mp < 10 then mp + 3 else mp - 9
  (if m ≤ 2 then y + 1 else y, m, d)

/-- Midnight UTC of a civil date, in nanoseconds since the Unix epoch:
Go time.Date(y, m, d, 0, 0, 0, 0, time.UTC). -/
def dateNs (y m d : Int) : Int := daysFromCivil y m d * nsPerDay

/-- The (t.Year(), t.Month()) pair of a timestamp, in UTC. -/
def yearMonthOf (t : Int) : Int × Int :=
  let c := civilFromDays (Int.fdiv t nsPerDay)
  (c.1, c.2.1)

/-- storage.CreatePartition monthStart: time.Date(t.Year(), t.Month(), 1, ..., UTC). -/
def partitionMonthStartNs (t : Int) : Int :=
  let ym := yearMonthOf t
  dateNs ym.1 ym.2 1

/-- The first instant of the month after t's month: monthStart.AddDate(0, 1, 0). -/
def nextMonthStartNs (t : Int) : Int :=
  let ym := yearMonthOf t
  if ym.2 = 12 then dateNs (ym.1 + 1) 1 1 else dateNs ym.1 (ym.2 + 1) 1

/-- storage.CreatePartition monthEnd: the next month's first instant minus one
second (the source comment says the end of month is the start of the next
month minus 1 second). -/
def partitionMonthEndNs (t : Int) : Int := nextMonthStartNs t - nsPerSecond

/-!
The storage model.  PostgreSQL behaviour the code relies on is embedded as
an explicit state: a range partition FOR VALUES FROM lo TO hi accepts rows
with lo ≤ time < hi (the upper bound is exclusive); an insert into the
partitioned candles table fails with SQLSTATE 23514 and the message
"no partition of relation ... found for row" when no partition covers the
row's timestamp; a true constraint violation (modelled by an explicit list
of offending keys, as a foreign-key failure would be) fails with SQLSTATE
23503; otherwise the insert upserts under the table's ON CONFLICT clause.
An attempt counter records every executed INSERT statement.
-/

/-- A candles-table partition: its name key (year, month) and its accepted
half-open time range. -/
structure Partition where
  key : Int × Int
  lo : Int
  hi : Int
deriving DecidableEq, BEq, Repr

/-- A row of the candles table (prices are the exact decimal strings the
code binds as query arguments). -/
structure CandleRow where
  figi : String
  time : Int
  openPrice : GoStr
  highPrice : GoStr
  lowPrice : GoStr
  closePrice : GoStr
  volume : Int
  intervalType : String
deriving DecidableEq, BEq, Repr

/-- A pgconn.PgError: SQLSTATE code and message. -/
structure PgError where
  code : String
  message : String
deriving DecidableEq, BEq, Repr

/-- Result of executing one INSERT. -/
inductive ExecResult where
  | ok : ExecResult
  | pgError (e : PgError) : ExecResult
  | otherError (msg : String) : ExecResult
deriving DecidableEq, BEq, Repr

/-- A dividends-table row (storage.Dividend). -/
structure Dividend where
  figi : String
  paymentDate : Int
  declaredDate : Option Int
  amount : Rat
  currency : String
  yieldPercent : Option Rat
deriving DecidableEq, BEq, Repr

/-- storage.Instrument (the reference-data struct and table row; audit
timestamp columns are not modelled). -/
structure Instrument where
  figi : String
  ticker : String
  name : String
  instrumentType : String
  currency : String
  lotSize : Int
  minPriceIncrement : Rat
  tradingStatus : String
  enabled : Bool
deriving DecidableEq, BEq, Repr

/-- The database state. -/
structure DbState where
  partitions : List Partition
  candles : List CandleRow
  candleViolations : List (String × Int × String)
  dividends : List Dividend
  dividendFailures : List (String × Int)
  instruments : List Instrument
  attempts : Nat
deriving DecidableEq, BEq, Repr

/-- Go strings.Contains. -/
def containsSubstr (hay sub : String) : Bool := decide (sub.data <:+: hay.data)

/-- The partition-error classifier of storage.SaveCandles: SQLSTATE 23514, or
a message mentioning a missing partition in English or Russian, or any
message mentioning a partition. -/
def isPartitionErr (e : PgError) : Bool :=
  e.code == "23514"
    || containsSubstr e.message ("no partition of relation")
    || containsSubstr e.message ("для строки не найдена секция")
    || containsSubstr e.message ("partition")

/-- The error PostgreSQL raises when no partition accepts the row. -/
def missingPartitionError : PgError :=
  ⟨"23514", "no partition of relation candles found for row"⟩

/-- The error PostgreSQL raises for a true constraint violation of the
candles table (here: its foreign key on figi). -/
def fkViolationError : PgError :=
  ⟨"23503", "insert or update on table candles violates foreign key constraint"⟩

/-- Whether a partition accepts a timestamp: FROM is inclusive, TO exclusive. -/
def partitionCovers (p : Partition) (tm : Int) : Bool :=
  decide (p.lo ≤ tm) && decide (tm < p.hi)

/-- Whether some existing partition accepts the timestamp. -/
def coveredB (s : DbState) (tm : Int) : Bool :=
  s.partitions.any (fun p => partitionCovers p tm)

/-- The primary key of a candle row. -/
def candleKey (r : CandleRow) : String × Int × String := (r.figi, r.time, r.intervalType)

/-- Whether two candle rows share a primary key. -/
def sameCandleKey (a b : CandleRow) : Bool :=
  a.figi == b.figi && a.time == b.time && a.intervalType == b.intervalType

/-- ON CONFLICT (figi, time, interval_type) DO UPDATE of the candles insert:
a row with the same key is overwritten in place, otherwise the row is added. -/
def upsertCandle (rows : List CandleRow) (r : CandleRow) : List CandleRow :=
  if (rows.find? (fun x => sameCandleKey x r)).isSome then
    rows.map (fun x => if sameCandleKey x r then r else x)
  else rows ++ [r]

/-- Increment the INSERT attempt counter. -/
def bumpAttempts (s : DbState) : DbState := { s with attempts := s.attempts + 1 }

/-- Execute the candles INSERT ... ON CONFLICT statement once. -/
def execInsertCandle (s : DbState) (r : CandleRow) : DbState × ExecResult :=
  let s1 := bumpAttempts s
  if coveredB s r.time = false then (s1, ExecResult.pgError missingPartitionError)
  else if s.candleViolations.contains (candleKey r) then
    (s1, ExecResult.pgError fkViolationError)
  else ({ s1 with candles := upsertCandle s.candles r }, ExecResult.ok)

/-- storage.CreatePartition: CREATE TABLE IF NOT EXISTS candles_year_month
PARTITION OF candles FOR VALUES FROM monthStart TO (nextMonthStart - 1s);
a no-op when the partition name already exists. -/
def CreatePartition (s : DbState) (t : Int) : DbState :=
  if s.partitions.any (fun p => p.key == yearMonthOf t) then s
  else { s with partitions :=
    s.partitions ++ [⟨yearMonthOf t, partitionMonthStartNs t, partitionMonthEndNs t⟩] }

/-- pb.HistoricCandle: one fetched candle. -/
structure HistoricCandle where
  time : Int
  openQ : Quotation
  highQ : Quotation
  lowQ : Quotation
  closeQ : Quotation
  volume : Int
deriving DecidableEq, BEq, Repr

/-- The candles-table row storage.SaveCandles binds for one candle: prices go
through money.ConvertMoneyValue. -/
def candleRow (figi : String) (c : HistoricCandle) (intervalType : String) : CandleRow :=
  ⟨figi, c.time,
    ConvertMoneyValue c.openQ.units c.openQ.nano,
    ConvertMoneyValue c.highQ.units c.highQ.nano,
    ConvertMoneyValue c.lowQ.units c.lowQ.nano,
    ConvertMoneyValue c.closeQ.units c.closeQ.nano,
    c.volume, intervalType⟩

/-- Rendering of an execution result inside a wrapped Go error message. -/
def execErrText : ExecResult → String
  | ExecResult.ok => ""
  | ExecResult.pgError e => e.message
  | ExecResult.otherError m => m

/-- The per-candle loop of storage.SaveCandles: insert; on a
partition-classified error create the partition and retry that insert once,
continuing on success; on any other error, or a failed retry, stop and
return the error. -/
def saveCandlesLoop (s : DbState) (figi : String) (candles : List HistoricCandle)
    (intervalType : String) : DbState × Option String :=
  match candles with
  | [] => (s, none)
  | c :: rest =>
    let (s1, r) := execInsertCandle s (candleRow figi c intervalType)
    match r with
    | ExecResult.ok => saveCandlesLoop s1 figi rest intervalType
    | ExecResult.otherError m => (s1, some ("ошибка вставки свечи: " ++ m))
    | ExecResult.pgError e =>
      if isPartitionErr e then
        let s2 := CreatePartition s1 c.time
        let (s3, r2) := execInsertCandle s2 (candleRow figi c intervalType)
        match r2 with
        | ExecResult.ok => saveCandlesLoop s3 figi rest intervalType
        | r2 => (s3, some ("ошибка вставки свечи после создания партиции: " ++ execErrText r2))
      else (s1, some ("ошибка вставки свечи: " ++ e.message))

/-- storage.SaveCandles: nothing to do for an empty batch, else run the loop. -/
def SaveCandles (s : DbState) (figi : String) (candles : List HistoricCandle)
    (intervalType : String) : DbState × Option String :=
  if candles.isEmpty then (s, none)
  else saveCandlesLoop s figi candles intervalType

/-- storage.SaveInstrument (internal/storage/instruments.go): INSERT ... ON
CONFLICT (figi) DO UPDATE SET every metadata field, with the enabled column
deliberately absent from the update list, so a new row stores the incoming
enabled value while an existing row keeps its stored one. -/
def SaveInstrument (table : List Instrument) (inst : Instrument) : List Instrument :=
  if (table.find? (fun r => r.figi == inst.figi)).isSome then
    table.map (fun r =>
      if r.figi == inst.figi then
        { r with
          ticker := inst.ticker
          name := inst.name
          instrumentType := inst.instrumentType
          currency := inst.currency
          lotSize := inst.lotSize
          minPriceIncrement := inst.minPriceIncrement
          tradingStatus := inst.tradingStatus }
      else r)
  else table ++ [inst]

/-- The stored candle times for one (figi, interval_type) pair. -/
def candleTimes (s : DbState) (figi intervalType : String) : List Int :=
  (s.candles.filter (fun r => r.figi == figi && r.intervalType == intervalType)).map
    (fun r => r.time)

/-- The nanosecond value of the Go zero time time.Time\x7b\x7d
(January 1 of year 1, UTC), which IsZero detects. -/
def goZeroTimeNs : Int := -62135596800000000000

/-- storage.GetLastLoadedTime: SELECT MAX(time) FROM candles WHERE figi AND
interval_type; a NULL maximum (no rows) is reported as the zero time with no
error. -/
def GetLastLoadedTime (s : DbState) (figi intervalType : String) : Int :=
  match (candleTimes s figi intervalType).max? with
  | none => goZeroTimeNs
  | some m => m

/-- The start-of-range computation of data.LoadCandleData: full history from
the configured start date for a zero last-loaded time, else resume exactly at
the last-loaded time. -/
def loadCandleDataFrom (lastLoadedTime startDate : Int) : Int :=
  if lastLoadedTime == goZeroTimeNs then startDate else lastLoadedTime

/-- ON CONFLICT (figi, payment_date) DO UPDATE of the dividends insert. -/
def upsertDividend (rows : List Dividend) (d : Dividend) : List Dividend :=
  if (rows.find? (fun x => x.figi == d.figi && x.paymentDate == d.paymentDate)).isSome then
    rows.map (fun x => if x.figi == d.figi && x.paymentDate == d.paymentDate then d else x)
  else rows ++ [d]

/-- Execute the dividends INSERT ... ON CONFLICT statement once: fails for
keys in the failure list, upserts otherwise with a nil error. -/
def execInsertDividend (s : DbState) (d : Dividend) : DbState × Option String :=
  if s.dividendFailures.contains (d.figi, d.paymentDate) then
    (s, some ("dividends insert failed"))
  else ({ s with dividends := upsertDividend s.dividends d }, none)

/-- Rendering of a possibly-nil wrapped Go error argument. -/
def goErrText : Option String → String
  | none => "%!w(<nil>)"
  | some m => m

/-- storage.SaveDividend: execute the upsert, then unconditionally wrap the
returned error — the source returns fmt.Errorf with the database error even
when that error is nil, so the result is never a nil error. -/
def SaveDividend (s : DbState) (d : Dividend) : DbState × Option String :=
  let (s1, err) := execInsertDividend s d
  (s1, some ("ошибка сохранения дивиденда: " ++ goErrText err))

/-- The save loop of app.ProcessInstrumentDividends over the fetched
dividends: stop with a wrapped error as soon as one SaveDividend call reports
an error, return nil after saving all. -/
def processDividendsSave (s : DbState) (ds : List Dividend) : DbState × Option String :=
  match ds with
  | [] => (s, none)
  | d :: rest =>
    let (s1, err) := SaveDividend s d
    match err with
    | some m => (s1, some ("ошибка сохранения дивиденда: " ++ m))
    | none => processDividendsSave s1 rest

/-!
The chunk planner of data.LoadCandleData: the resolution is mapped to an
atomic time unit and a configuration key, the chunk size is the configured
per-request row limit times the unit, and the loop walks currentFrom from
the range start, clamping each chunk end to the range end.
-/

/-- pkg/config candle interval constants. -/
def CandleInterval1Min : String := "CANDLE_INTERVAL_1_MIN"

def CandleInterval2Min : String := "CANDLE_INTERVAL_2_MIN"

def CandleInterval3Min : String := "CANDLE_INTERVAL_3_MIN"

def CandleInterval5Min : String := "CANDLE_INTERVAL_5_MIN"

def CandleInterval10Min : String := "CANDLE_INTERVAL_10_MIN"

def CandleInterval15Min : String := "CANDLE_INTERVAL_15_MIN"

def CandleInterval30Min : String := "CANDLE_INTERVAL_30_MIN"

def CandleIntervalHour : String := "CANDLE_INTERVAL_HOUR"

def CandleInterval2Hour : String := "CANDLE_INTERVAL_2_HOUR"

def CandleInterval4Hour : String := "CANDLE_INTERVAL_4_HOUR"

def CandleIntervalDay : String := "CANDLE_INTERVAL_DAY"

def CandleIntervalWeek : String := "CANDLE_INTERVAL_WEEK"

def CandleIntervalMonth : String := "CANDLE_INTERVAL_MONTH"

/-- pkg/config textual interval keys. -/
def CandleIntervalText1Min : String := "1min"

def CandleIntervalTextHour : String := "1hour"

def CandleIntervalTextDay : String := "1day"

def CandleIntervalTextWeek : String := "1week"

def CandleIntervalTextMonth : String := "1month"

/-- pkg/config DefaultUpdateThreshold (one minute). -/
def DefaultUpdateThreshold : Int := nsPerMinute

/-- config.GetTimeUnitAndConfigKey: the atomic time unit (a Go Duration in
nanoseconds) and configuration key for each interval type; sub-hour and
1-hour intervals use the minute unit keyed 1min, multi-hour intervals the
hour unit keyed 1hour, and day, week, month use 24h, 7x24h, 30x24h; unknown
intervals fall back to the default threshold and the 1min key. -/
def GetTimeUnitAndConfigKey (intervalType : String) : Int × String :=
  if intervalType = CandleInterval1Min then (nsPerMinute, CandleIntervalText1Min)
  else if intervalType = CandleInterval2Min then (nsPerMinute, CandleIntervalText1Min)
  else if intervalType = CandleInterval3Min then (nsPerMinute, CandleIntervalText1Min)
  else if intervalType = CandleInterval5Min then (nsPerMinute, CandleIntervalText1Min)
  else if intervalType = CandleInterval10Min then (nsPerMinute, CandleIntervalText1Min)
  else if intervalType = CandleInterval15Min then (nsPerMinute, CandleIntervalText1Min)
  else if intervalType = CandleInterval30Min then (nsPerMinute, CandleIntervalText1Min)
  else if intervalType = CandleIntervalHour then (nsPerMinute, CandleIntervalText1Min)
  else if intervalType = CandleInterval2Hour then (nsPerHour, CandleIntervalTextHour)
  else if intervalType = CandleInterval4Hour then (nsPerHour, CandleIntervalTextHour)
  else if intervalType = CandleIntervalDay then (24 * nsPerHour, CandleIntervalTextDay)
  else if intervalType = CandleIntervalWeek then (7 * 24 * nsPerHour, CandleIntervalTextWeek)
  else if intervalType = CandleIntervalMonth then (30 * 24 * nsPerHour, CandleIntervalTextMonth)
  else (DefaultUpdateThreshold, CandleIntervalText1Min)

/-- The chunk walk of data.LoadCandleData: while currentFrom is before the
range end, the chunk end is currentFrom plus the chunk size, clamped to the
range end, and the next iteration starts at the chunk end.  The Go loop
terminates only for a positive chunk size, which the guard reflects. -/
def loadChunks (chunkSize f t : Int) : List (Int × Int) :=
  if h : 0 < chunkSize ∧ f < t then
    let e := if t < f + chunkSize then t else f + chunkSize
    (f, e) :: loadChunks chunkSize e t
  else []
termination_by (t - f).toNat
decreasing_by
  split <;> omega

/-- data.LoadCandleData chunkSize: the configured row limit for the interval
key times the atomic time unit. -/
def chunkSizeOf (intervalType : String) (apiLimit : Int) : Int :=
  apiLimit * (GetTimeUnitAndConfigKey intervalType).1

/-! Chunk planner lemmas. -/

theorem loadChunks_of_le (cs f t : Int) (h : t ≤ f) : loadChunks cs f t = [] := by
  rw [loadChunks, dif_neg]
  omega

theorem loadChunks_cons (cs f t : Int) (hcs : 0 < cs) (h : f < t) :
    loadChunks cs f t
      = (f, min (f + cs) t) :: loadChunks cs (min (f + cs) t) t := by
  rw [loadChunks, dif_pos ⟨hcs, h⟩]
  have he : (if t < f + cs then t else f + cs) = min (f + cs) t := by
    split <;> omega
  rw [he]

theorem timeUnit_pos (intervalType : String) : 0 < (GetTimeUnitAndConfigKey intervalType).1 := by
  rw [GetTimeUnitAndConfigKey]
  by_cases h1 : intervalType = CandleInterval1Min
  · rw [if_pos h1]; decide
  rw [if_neg h1]
  by_cases h2 : intervalType = CandleInterval2Min
  · rw [if_pos h2]; decide
  rw [if_neg h2]
  by_cases h3 : intervalType = CandleInterval3Min
  · rw [if_pos h3]; decide
  rw [if_neg h3]
  by_cases h4 : intervalType = CandleInterval5Min
  · rw [if_pos h4]; decide
  rw [if_neg h4]
  by_cases h5 : intervalType = CandleInterval10Min
  · rw [if_pos h5]; decide
  rw [if_neg h5]
  by_cases h6 : intervalType = CandleInterval15Min
  · rw [if_pos h6]; decide
  rw [if_neg h6]
  by_cases h7 : intervalType = CandleInterval30Min
  · rw [if_pos h7]; decide
  rw [if_neg h7]
  by_cases h8 : intervalType = CandleIntervalHour
  · rw [if_pos h8]; decide
  rw [if_neg h8]
  by_cases h9 : intervalType = CandleInterval2Hour
  · rw [if_pos h9]; decide
  rw [if_neg h9]
  by_cases h10 : intervalType = CandleInterval4Hour
  · rw [if_pos h10]; decide
  rw [if_neg h10]
  by_cases h11 : intervalType = CandleIntervalDay
  · rw [if_pos h11]; decide
  rw [if_neg h11]
  by_cases h12 : intervalType = CandleIntervalWeek
  · rw [if_pos h12]; decide
  rw [if_neg h12]
  by_cases h13 : intervalType = CandleIntervalMonth
  · rw [if_pos h13]; decide
  rw [if_neg h13]
  decide

theorem loadChunks_struct (cs : Int) (hcs : 0 < cs) :
    ∀ (n : Nat) (f t : Int), (t - f).toNat ≤ n → f < t →
      loadChunks cs f t ≠ [] ∧
      (loadChunks cs f t).head?.map Prod.fst = some f ∧
      (loadChunks cs f t).getLast?.map Prod.snd = some t ∧
      List.Chain' (fun p q : Int × Int => p.2 = q.1) (loadChunks cs f t) ∧
      (∀ p ∈ loadChunks cs f t, p.1 < p.2 ∧ p.2 = min (p.1 + cs) t) := by
  intro n
  induction n with
  | zero =>
    intro f t hle h
    exfalso
    omega
  | succ n ih =>
    intro f t hle h
    rw [loadChunks_cons cs f t hcs h]
    set e := min (f + cs) t with he
    have hfe : f < e ∧ e ≤ t := by rw [he]; constructor <;> omega
    by_cases het : e < t
    · obtain ⟨ih1, ih2, ih3, ih4, ih5⟩ := ih e t (by omega) het
      refine ⟨by simp, by simp, ?_, ?_, ?_⟩
      · cases hL : loadChunks cs e t with
        | nil => exact absurd hL ih1
        | cons x L' =>
          rw [List.getLast?_cons_cons, ← hL]
          exact ih3
      · rw [List.chain'_cons']
        refine ⟨?_, ih4⟩
        intro y hy
        have hsome : (loadChunks cs e t).head? = some y := hy
        rw [hsome] at ih2
        simp only [Option.map_some', Option.some.injEq] at ih2
        exact ih2.symm
      · intro p hp
        rcases List.mem_cons.mp hp with hp | hp
        · subst hp
          exact ⟨hfe.1, he⟩
        · exact ih5 p hp
    · have het' : e = t := by omega
      have hnil : loadChunks cs e t = [] := loadChunks_of_le cs e t (by omega)
      rw [hnil]
      refine ⟨by simp, by simp, by simp [het'], by simp, ?_⟩
      intro p hp
      have hp' : p = (f, e) := by simpa using hp
      subst hp'
      exact ⟨hfe.1, he⟩

theorem loadChunks_cover (cs : Int) (hcs : 0 < cs) :
    ∀ (n : Nat) (f t : Int), (t - f).toNat ≤ n →
      ∀ x : Int, (∃ p ∈ loadChunks cs f t, p.1 ≤ x ∧ x < p.2) ↔ (f ≤ x ∧ x < t) := by
  intro n
  induction n with
  | zero =>
    intro f t hle x
    rw [loadChunks_of_le cs f t (by omega)]
    simp
    omega
  | succ n ih =>
    intro f t hle x
    by_cases h : f < t
    · rw [loadChunks_cons cs f t hcs h]
      set e := min (f + cs) t with he
      have hfe : f < e ∧ e ≤ t := by rw [he]; constructor <;> omega
      have ihx := ih e t (by omega) x
      constructor
      · rintro ⟨p, hp, hx1, hx2⟩
        rcases List.mem_cons.mp hp with hp | hp
        · subst hp
          constructor <;> simp only [] at hx1 hx2 <;> omega
        · have := ihx.mp ⟨p, hp, hx1, hx2⟩
          omega
      · rintro ⟨hx1, hx2⟩
        by_cases hxe : x < e
        · exact ⟨(f, e), List.mem_cons_self _ _, hx1, hxe⟩
        · obtain ⟨p, hp, hpx⟩ := ihx.mpr ⟨by omega, hx2⟩
          exact ⟨p, List.mem_cons_of_mem _ hp, hpx⟩
    · rw [loadChunks_of_le cs f t (by omega)]
      simp
      omega

/-- C1: the chunk loop of data.LoadCandleData, with chunk size the atomic
time unit of the resolution times a positive API row limit, covers exactly
the half-open range from the start to the end: for start before end the
chunks are nonempty, begin at the start, share boundaries, each ends at the
minimum of start-plus-chunk-size and the range end (so every chunk except a
final clamped one has the full length and no chunk overruns the end), the
final chunk ends exactly at the end, and a timestamp lies in some chunk
exactly when it lies in the range; for start at or past the end no chunk is
produced, so no fetch is attempted. -/
theorem loadCandleData_chunk_coverage (intervalType : String) (apiLimit f t : Int)
    (hL : 0 < apiLimit) :
    (t ≤ f → loadChunks (chunkSizeOf intervalType apiLimit) f t = []) ∧
    (f < t →
      loadChunks (chunkSizeOf intervalType apiLimit) f t ≠ [] ∧
      (loadChunks (chunkSizeOf intervalType apiLimit) f t).head?.map Prod.fst = some f ∧
      (loadChunks (chunkSizeOf intervalType apiLimit) f t).getLast?.map Prod.snd = some t ∧
      List.Chain' (fun p q : Int × Int => p.2 = q.1)
        (loadChunks (chunkSizeOf intervalType apiLimit) f t) ∧
      (∀ p ∈ loadChunks (chunkSizeOf intervalType apiLimit) f t,
        p.1 < p.2 ∧ p.2 ≤ t ∧
        (p.2 ≠ t → p.2 = p.1 + chunkSizeOf intervalType apiLimit)) ∧
      (∀ x : Int, (f ≤ x ∧ x < t) ↔
        ∃ p ∈ loadChunks (chunkSizeOf intervalType apiLimit) f t, p.1 ≤ x ∧ x < p.2)) := by
  have hcs : 0 < chunkSizeOf intervalType apiLimit :=
    mul_pos hL (timeUnit_pos intervalType)
  refine ⟨fun h => loadChunks_of_le _ f t h, fun h => ?_⟩
  obtain ⟨h1, h2, h3, h4, h5⟩ :=
    loadChunks_struct _ hcs (t - f).toNat f t le_rfl h
  refine ⟨h1, h2, h3, h4, fun p hp => ?_, fun x => ?_⟩
  · obtain ⟨hlt, hmin⟩ := h5 p hp
    refine ⟨hlt, by omega, by omega⟩
  · exact (loadChunks_cover _ hcs (t - f).toNat f t le_rfl x).symm

/-! Storage layer lemmas. -/

theorem bumpAttempts_partitions (s : DbState) : (bumpAttempts s).partitions = s.partitions := rfl

theorem bumpAttempts_attempts (s : DbState) : (bumpAttempts s).attempts = s.attempts + 1 := rfl

theorem CreatePartition_attempts (s : DbState) (t : Int) :
    (CreatePartition s t).attempts = s.attempts := by
  rw [CreatePartition]
  split <;> rfl

theorem execInsertCandle_attempts (s : DbState) (r : CandleRow) :
    (execInsertCandle s r).1.attempts = s.attempts + 1 := by
  rw [execInsertCandle]
  split
  · rfl
  · split <;> rfl

theorem candleRow_time (figi : String) (c : HistoricCandle) (itv : String) :
    (candleRow figi c itv).time = c.time := rfl

theorem execInsertCandle_missing (s : DbState) (figi : String) (c : HistoricCandle)
    (itv : String) (hcov : coveredB s c.time = false) :
    execInsertCandle s (candleRow figi c itv)
      = (bumpAttempts s, ExecResult.pgError missingPartitionError) := by
  rw [execInsertCandle, candleRow_time, if_pos hcov]

theorem execInsertCandle_constraint (s : DbState) (figi : String) (c : HistoricCandle)
    (itv : String) (hcov : coveredB s c.time = true)
    (hviol : s.candleViolations.contains (candleKey (candleRow figi c itv)) = true) :
    execInsertCandle s (candleRow figi c itv)
      = (bumpAttempts s, ExecResult.pgError fkViolationError) := by
  rw [execInsertCandle, candleRow_time, if_neg (by simp [hcov]), if_pos hviol]

theorem SaveCandles_cons (s : DbState) (figi : String) (c : HistoricCandle)
    (rest : List HistoricCandle) (itv : String) :
    SaveCandles s figi (c :: rest) itv = saveCandlesLoop s figi (c :: rest) itv := by
  rw [SaveCandles, if_neg]
  simp

set_option maxRecDepth 8000 in
theorem saveCandlesLoop_cons_constraint (s : DbState) (figi : String) (c : HistoricCandle)
    (rest : List HistoricCandle) (itv : String) (hcov : coveredB s c.time = true)
    (hviol : s.candleViolations.contains (candleKey (candleRow figi c itv)) = true) :
    saveCandlesLoop s figi (c :: rest) itv
      = (bumpAttempts s, some ("ошибка вставки свечи: " ++ fkViolationError.message)) := by
  rw [saveCandlesLoop]
  rw [execInsertCandle_constraint s figi c itv hcov hviol]
  have hnp : isPartitionErr fkViolationError = false := by decide
  simp [hnp]

set_option maxRecDepth 8000 in
theorem saveCandlesLoop_cons_missing (s : DbState) (figi : String) (c : HistoricCandle)
    (rest : List HistoricCandle) (itv : String) (hcov : coveredB s c.time = false) :
    saveCandlesLoop s figi (c :: rest) itv
      = (match (execInsertCandle (CreatePartition (bumpAttempts s) c.time)
            (candleRow figi c itv)).2 with
         | ExecResult.ok =>
            saveCandlesLoop
              (execInsertCandle (CreatePartition (bumpAttempts s) c.time)
                (candleRow figi c itv)).1 figi rest itv
         | r2 =>
            ((execInsertCandle (CreatePartition (bumpAttempts s) c.time)
                (candleRow figi c itv)).1,
             some ("ошибка вставки свечи после создания партиции: " ++ execErrText r2))) := by
  rw [saveCandlesLoop]
  rw [execInsertCandle_missing s figi c itv hcov]
  have hp : isPartitionErr missingPartitionError = true := by decide
  simp [hp]

set_option maxRecDepth 8000 in
/-- C3 (evaluating the code at the failing input): the partition
CreatePartition provisions for a mid-January timestamp accepts ordinary
January times, but its upper bound is the first instant of February minus one
second, so the final second of January — inside the calendar month, before
the next month's start — is rejected by the created partition. -/
theorem CreatePartition_misses_last_second :
    coveredB (CreatePartition ⟨[], [], [], [], [], [], 0⟩ (dateNs 2024 1 15))
        (dateNs 2024 2 1 - nsPerSecond) = false ∧
    partitionMonthStartNs (dateNs 2024 1 15) ≤ dateNs 2024 2 1 - nsPerSecond ∧
    dateNs 2024 2 1 - nsPerSecond < nextMonthStartNs (dateNs 2024 1 15) ∧
    coveredB (CreatePartition ⟨[], [], [], [], [], [], 0⟩ (dateNs 2024 1 15))
        (dateNs 2024 1 15) = true := by
  refine ⟨?_, ?_, ?_, ?_⟩ <;> decide

set_option maxRecDepth 8000 in
/-- C4: when an insert fails because no partition covers the candle's
timestamp (a partition-classified error), SaveCandles creates the monthly
partition for that timestamp and retries that single insert exactly once
(the attempt counter advances by exactly two for the record): a successful
retry lets the batch continue, a failed retry propagates the error; a true
constraint error is propagated directly — no partition is created and no
retry happens. -/
theorem SaveCandles_partition_selfheal (s : DbState) (figi : String)
    (c : HistoricCandle) (rest : List HistoricCandle) (itv : String) :
    (coveredB s c.time = false →
      (execInsertCandle s (candleRow figi c itv)).2
          = ExecResult.pgError missingPartitionError ∧
      isPartitionErr missingPartitionError = true ∧
      (CreatePartition (bumpAttempts s) c.time).partitions.any
          (fun p => p.key == yearMonthOf c.time) = true ∧
      ((execInsertCandle (CreatePartition (bumpAttempts s) c.time)
          (candleRow figi c itv)).2 = ExecResult.ok →
        SaveCandles s figi (c :: rest) itv
          = saveCandlesLoop
              (execInsertCandle (CreatePartition (bumpAttempts s) c.time)
                (candleRow figi c itv)).1 figi rest itv ∧
        (execInsertCandle (CreatePartition (bumpAttempts s) c.time)
            (candleRow figi c itv)).1.attempts = s.attempts + 2) ∧
      ((execInsertCandle (CreatePartition (bumpAttempts s) c.time)
          (candleRow figi c itv)).2 ≠ ExecResult.ok →
        SaveCandles s figi (c :: rest) itv
          = ((execInsertCandle (CreatePartition (bumpAttempts s) c.time)
                (candleRow figi c itv)).1,
             some ("ошибка вставки свечи после создания партиции: "
               ++ execErrText (execInsertCandle (CreatePartition (bumpAttempts s) c.time)
                     (candleRow figi c itv)).2)) ∧
        (execInsertCandle (CreatePartition (bumpAttempts s) c.time)
            (candleRow figi c itv)).1.attempts = s.attempts + 2)) ∧
    (coveredB s c.time = true →
      s.candleViolations.contains (candleKey (candleRow figi c itv)) = true →
      isPartitionErr fkViolationError = false ∧
      SaveCandles s figi (c :: rest) itv
        = (bumpAttempts s, some ("ошибка вставки свечи: " ++ fkViolationError.message)) ∧
      (bumpAttempts s).partitions = s.partitions ∧
      (bumpAttempts s).attempts = s.attempts + 1) := by
  constructor
  · intro hcov
    have hmiss := execInsertCandle_missing s figi c itv hcov
    have hattempts : ∀ r : CandleRow,
        (execInsertCandle (CreatePartition (bumpAttempts s) c.time) r).1.attempts
          = s.attempts + 2 := by
      intro r
      rw [execInsertCandle_attempts, CreatePartition_attempts, bumpAttempts_attempts]
    refine ⟨by rw [hmiss], by decide, ?_, ?_, ?_⟩
    · rw [CreatePartition]
      split
      · next hany => exact hany
      · simp
    · intro hok
      rw [SaveCandles_cons, saveCandlesLoop_cons_missing s figi c rest itv hcov]
      refine ⟨?_, hattempts _⟩
      rw [hok]
    · intro hne
      rw [SaveCandles_cons, saveCandlesLoop_cons_missing s figi c rest itv hcov]
      refine ⟨?_, hattempts _⟩
      cases hr2 : (execInsertCandle (CreatePartition (bumpAttempts s) c.time)
          (candleRow figi c itv)).2 with
      | ok => exact absurd hr2 hne
      | pgError e => rfl
      | otherError m => rfl
  · intro hcov hviol
    refine ⟨by decide, ?_, rfl, rfl⟩
    rw [SaveCandles_cons, saveCandlesLoop_cons_constraint s figi c rest itv hcov hviol]

/-! Batch abort behaviour. -/

/-- A state with one partition covering times 0 to 1000000 and a constraint
violation registered for the key of the first test candle. -/
def abortState : DbState := ⟨[⟨(1970, 1), 0, 1000000⟩], [], [("F", 5, "1min")], [], [], [], 0⟩

/-- A candle whose insert hits the registered constraint violation. -/
def abortCandle1 : HistoricCandle := ⟨5, ⟨1, 0⟩, ⟨1, 0⟩, ⟨1, 0⟩, ⟨1, 0⟩, 10⟩

/-- A well-behaved candle queued after the failing one. -/
def abortCandle2 : HistoricCandle := ⟨6, ⟨2, 0⟩, ⟨2, 0⟩, ⟨2, 0⟩, ⟨2, 0⟩, 20⟩

set_option maxRecDepth 8000 in
/-- C5 counterexample: in a two-candle batch whose first candle fails with a
true constraint error, SaveCandles stops at once — exactly one insert is
attempted, the second candle is never tried and nothing is stored — so a
record after a fatally failed one is not "still attempted" as claimed. -/
theorem SaveCandles_batch_abort_cex :
    (SaveCandles abortState "F" [abortCandle1, abortCandle2] "1min").2
        = some ("ошибка вставки свечи: " ++ fkViolationError.message) ∧
    (SaveCandles abortState "F" [abortCandle1, abortCandle2] "1min").1.attempts = 1 ∧
    (SaveCandles abortState "F" [abortCandle1, abortCandle2] "1min").1.candles = [] := by
  refine ⟨?_, ?_, ?_⟩ <;> decide

/-- C5 as amended: a fatal failure of one record — a true constraint error,
or a retry that still fails after partition creation — aborts the batch:
the error is propagated and the remaining records are not attempted (the
result for the batch equals the result for the failing record alone, and the
attempt counter shows no further insert). -/
theorem SaveCandles_fatal_aborts_batch (s : DbState) (figi : String)
    (c : HistoricCandle) (rest : List HistoricCandle) (itv : String) :
    (coveredB s c.time = true →
      s.candleViolations.contains (candleKey (candleRow figi c itv)) = true →
      SaveCandles s figi (c :: rest) itv = SaveCandles s figi [c] itv ∧
      (SaveCandles s figi [c] itv).2.isSome = true ∧
      (SaveCandles s figi [c] itv).1.attempts = s.attempts + 1) ∧
    (coveredB s c.time = false →
      (execInsertCandle (CreatePartition (bumpAttempts s) c.time)
          (candleRow figi c itv)).2 ≠ ExecResult.ok →
      SaveCandles s figi (c :: rest) itv = SaveCandles s figi [c] itv ∧
      (SaveCandles s figi [c] itv).2.isSome = true ∧
      (SaveCandles s figi [c] itv).1.attempts = s.attempts + 2) := by
  constructor
  · intro hcov hviol
    have h1 := saveCandlesLoop_cons_constraint s figi c rest itv hcov hviol
    have h2 := saveCandlesLoop_cons_constraint s figi c [] itv hcov hviol
    rw [SaveCandles_cons, SaveCandles_cons, h1, h2]
    exact ⟨rfl, rfl, rfl⟩
  · intro hcov hne
    have h1 := saveCandlesLoop_cons_missing s figi c rest itv hcov
    have h2 := saveCandlesLoop_cons_missing s figi c [] itv hcov
    rw [SaveCandles_cons, SaveCandles_cons, h1, h2]
    cases hr2 : (execInsertCandle (CreatePartition (bumpAttempts s) c.time)
        (candleRow figi c itv)).2 with
    | ok => exact absurd hr2 hne
    | pgError e =>
      refine ⟨rfl, rfl, ?_⟩
      rw [execInsertCandle_attempts, CreatePartition_attempts, bumpAttempts_attempts]
    | otherError m =>
      refine ⟨rfl, rfl, ?_⟩
      rw [execInsertCandle_attempts, CreatePartition_attempts, bumpAttempts_attempts]

/-- C6: re-running the instrument upsert for an already stored figi updates
every metadata field from the incoming record but leaves the stored enabled
flag unchanged, whatever the incoming record carries; in particular a row
whose enabled flag is true keeps it true across a metadata re-sync. -/
theorem SaveInstrument_preserves_enabled (table : List Instrument) (inst r0 : Instrument)
    (hfind : table.find? (fun r => r.figi == inst.figi) = some r0) :
    ∃ r1, (SaveInstrument table inst).find? (fun r => r.figi == inst.figi) = some r1 ∧
      r1.enabled = r0.enabled ∧
      r1.ticker = inst.ticker ∧ r1.name = inst.name ∧
      r1.instrumentType = inst.instrumentType ∧ r1.currency = inst.currency ∧
      r1.lotSize = inst.lotSize ∧ r1.minPriceIncrement = inst.minPriceIncrement ∧
      r1.tradingStatus = inst.tradingStatus ∧ r1.figi = r0.figi ∧
      (r0.enabled = true → r1.enabled = true) := by
  have hp0 : (r0.figi == inst.figi) = true := (List.find?_eq_some.mp hfind).1
  set f : Instrument → Instrument := fun r =>
    if r.figi == inst.figi then
      { r with
        ticker := inst.ticker
        name := inst.name
        instrumentType := inst.instrumentType
        currency := inst.currency
        lotSize := inst.lotSize
        minPriceIncrement := inst.minPriceIncrement
        tradingStatus := inst.tradingStatus }
    else r with hf
  have hsave : SaveInstrument table inst = table.map f := by
    rw [SaveInstrument, if_pos (by rw [hfind]; rfl)]
  have hpf : ((fun r : Instrument => r.figi == inst.figi) ∘ f)
      = (fun r : Instrument => r.figi == inst.figi) := by
    funext r
    simp only [Function.comp_apply, hf]
    split <;> rfl
  refine ⟨f r0, ?_, ?_⟩
  · rw [hsave, List.find?_map, hpf, hfind, Option.map_some']
  · rw [hf]
    simp only [if_pos hp0]
    simp

/-- C9: at the start of a cycle the driver reads the last persisted candle
time from the candle store (the maximum stored time for the figi and
resolution): with no persisted candles it is reported as the zero time and
the loading range starts at the configured history start date; with persisted
candles the range starts exactly at the reported maximum. -/
theorem computeStart_spec (s : DbState) (figi itv : String) (startDate : Int) :
    (candleTimes s figi itv = [] →
      GetLastLoadedTime s figi itv = goZeroTimeNs ∧
      loadCandleDataFrom (GetLastLoadedTime s figi itv) startDate = startDate) ∧
    (∀ m, (candleTimes s figi itv).max? = some m → m ≠ goZeroTimeNs →
      GetLastLoadedTime s figi itv = m ∧
      loadCandleDataFrom (GetLastLoadedTime s figi itv) startDate = m) := by
  constructor
  · intro hnil
    have hmax : (candleTimes s figi itv).max? = none := by rw [hnil]; rfl
    have hlast : GetLastLoadedTime s figi itv = goZeroTimeNs := by
      rw [GetLastLoadedTime, hmax]
    refine ⟨hlast, ?_⟩
    rw [hlast, loadCandleDataFrom, if_pos (by simp)]
  · intro m hmax hne
    have hlast : GetLastLoadedTime s figi itv = m := by
      rw [GetLastLoadedTime, hmax]
    refine ⟨hlast, ?_⟩
    rw [hlast, loadCandleDataFrom, if_neg (by simp [hne])]

/-- C10: SaveDividend wraps the database error unconditionally, so it returns
a non-nil error even when the underlying upsert succeeded (the row is
persisted and an error is still reported); consequently the dividend save
loop of ProcessInstrumentDividends fails on the first dividend of any
non-empty batch and never reaches its success path. -/
theorem SaveDividend_always_errors (s : DbState) (d : Dividend) (ds : List Dividend) :
    (SaveDividend s d).2.isSome = true ∧
    ((execInsertDividend s d).2 = none →
      (SaveDividend s d).1.dividends = upsertDividend s.dividends d) ∧
    (processDividendsSave s (d :: ds)).2.isSome = true ∧
    (processDividendsSave s (d :: ds)).1 = (SaveDividend s d).1 := by
  refine ⟨rfl, ?_, rfl, rfl⟩
  intro hnone
  by_cases hc : s.dividendFailures.contains (d.figi, d.paymentDate) = true
  · rw [execInsertDividend, if_pos hc] at hnone
    simp at hnone
  · rw [SaveDividend]
    rw [execInsertDividend, if_neg hc]

/-! Witnesses: the claim theorems applied at concrete inputs. -/

/-- Witness for the chunk coverage theorem: a daily resolution with a 30-row
limit produces no chunks for an empty range and at least one chunk for a
40-day range. -/
theorem loadCandleData_chunk_coverage_witness :
    loadChunks (chunkSizeOf CandleIntervalDay 30) 100 100 = [] ∧
    loadChunks (chunkSizeOf CandleIntervalDay 30) 0 3456000000000000 ≠ [] := by
  have h1 := loadCandleData_chunk_coverage CandleIntervalDay 30 100 100 (by norm_num)
  have h2 := loadCandleData_chunk_coverage CandleIntervalDay 30 0 3456000000000000 (by norm_num)
  exact ⟨h1.1 le_rfl, (h2.2 (by norm_num)).1⟩

/-- Witness for the codec round trip at the spec's example value. -/
theorem parsePriceString_ConvertMoneyValue_witness :
    parsePriceString (ConvertMoneyValue 272 269999999) = ⟨272, 269999999⟩ :=
  parsePriceString_ConvertMoneyValue 272 269999999 (by norm_num) (by norm_num)
    (by norm_num) (by norm_num)

/-- An empty database state, with no partitions yet. -/
def healState : DbState := ⟨[], [], [], [], [], [], 0⟩

/-- A candle timed mid-January 2024, whose first insert hits the missing
partition. -/
def healCandle : HistoricCandle := ⟨dateNs 2024 1 15, ⟨1, 500000000⟩, ⟨2, 0⟩, ⟨1, 0⟩, ⟨1, 250000000⟩, 100⟩

set_option maxRecDepth 8000 in
/-- Witness for the self-heal theorem: on an empty state the insert is
missing its partition, the partition gets created, the retried insert
succeeds and exactly two inserts were attempted. -/
theorem SaveCandles_partition_selfheal_witness :
    coveredB healState healCandle.time = false ∧
    SaveCandles healState "F" [healCandle] "1min"
      = saveCandlesLoop
          (execInsertCandle (CreatePartition (bumpAttempts healState) healCandle.time)
            (candleRow "F" healCandle "1min")).1 "F" [] "1min" ∧
    (execInsertCandle (CreatePartition (bumpAttempts healState) healCandle.time)
        (candleRow "F" healCandle "1min")).1.attempts = healState.attempts + 2 := by
  have h := (SaveCandles_partition_selfheal healState "F" healCandle [] "1min").1 (by decide)
  have h2 := h.2.2.2.1 (by decide)
  exact ⟨by decide, h2.1, h2.2⟩

set_option maxRecDepth 8000 in
/-- Witness for the batch-abort theorem at the concrete counterexample
batch. -/
theorem SaveCandles_fatal_aborts_batch_witness :
    SaveCandles abortState "F" [abortCandle1, abortCandle2] "1min"
      = SaveCandles abortState "F" [abortCandle1] "1min" ∧
    (SaveCandles abortState "F" [abortCandle1] "1min").2.isSome = true ∧
    (SaveCandles abortState "F" [abortCandle1] "1min").1.attempts
      = abortState.attempts + 1 :=
  (SaveCandles_fatal_aborts_batch abortState "F" abortCandle1 [abortCandle2] "1min").1
    (by decide) (by decide)

/-- A stored instrument row with the enabled flag set by an operator. -/
def guardRow : Instrument := ⟨"FIGI1", "T1", "N1", "share", "rub", 10, 1, "NORMAL", true⟩

/-- An incoming metadata record for the same figi reporting enabled false. -/
def guardIncoming : Instrument := ⟨"FIGI1", "T2", "N2", "share", "usd", 20, 2, "TRADING", false⟩

/-- Witness for the metadata overwrite guard: after the re-sync the row holds
the new metadata and still has enabled true. -/
theorem SaveInstrument_preserves_enabled_witness :
    ∃ r1, (SaveInstrument [guardRow] guardIncoming).find?
        (fun r => r.figi == guardIncoming.figi) = some r1 ∧
      r1.enabled = guardRow.enabled ∧
      r1.ticker = guardIncoming.ticker ∧ r1.name = guardIncoming.name ∧
      r1.instrumentType = guardIncoming.instrumentType ∧
      r1.currency = guardIncoming.currency ∧
      r1.lotSize = guardIncoming.lotSize ∧
      r1.minPriceIncrement = guardIncoming.minPriceIncrement ∧
      r1.tradingStatus = guardIncoming.tradingStatus ∧ r1.figi = guardRow.figi ∧
      (guardRow.enabled = true → r1.enabled = true) :=
  SaveInstrument_preserves_enabled [guardRow] guardIncoming guardRow (by decide)

/-- Witness for the encoder shape theorem at the spec's example values. -/
theorem ConvertMoneyValue_shape_witness :
    ConvertMoneyValue 5 0 = intChars 5 ∧
    ConvertMoneyValue 272 270000000 = ('2' :: '7' :: '2' :: '.' :: "27".data) := by
  have h0 := ConvertMoneyValue_shape 5 0 (by norm_num) (by norm_num)
  have h1 := ConvertMoneyValue_shape 272 270000000 (by norm_num) (by norm_num)
  exact ⟨h0.1 rfl, h1.2.2.2.1⟩

/-- Witness for decoder totality: a one-digit fraction is zero-padded, and a
malformed string decodes to the zero quotation. -/
theorem parsePriceString_total_witness :
    parsePriceString (intChars 1 ++ '.' :: [5].map digitChar) = ⟨1, fractionNano [5]⟩ ∧
    parsePriceString "abc".data = ⟨0, 0⟩ := by
  have h := parsePriceString_total 1 [5] (by norm_num) (by norm_num) (by decide) (by decide)
  exact ⟨h.1, h.2.2.2.2.1⟩

/-- A state holding one persisted candle for figi F at time 1000. -/
def progressState : DbState :=
  ⟨[], [⟨"F", 1000, ['1'], ['1'], ['1'], ['1'], 5, "1min"⟩], [], [], [], [], 0⟩

/-- Witness for the start computation: with a persisted candle the range
starts at its time, without one it starts at the configured start date. -/
theorem computeStart_spec_witness :
    GetLastLoadedTime progressState "F" "1min" = 1000 ∧
    loadCandleDataFrom (GetLastLoadedTime progressState "F" "1min") 7 = 1000 ∧
    GetLastLoadedTime progressState "G" "1min" = goZeroTimeNs ∧
    loadCandleDataFrom (GetLastLoadedTime progressState "G" "1min") 7 = 7 := by
  have h1 := (computeStart_spec progressState "F" "1min" 7).2 1000 (by decide) (by decide)
  have h2 := (computeStart_spec progressState "G" "1min" 7).1 (by decide)
  exact ⟨h1.1, h1.2, h2.1, h2.2⟩

/-- An empty state for the dividend path. -/
def divState : DbState := ⟨[], [], [], [], [], [], 0⟩

/-- A dividend record whose upsert succeeds. -/
def divRecord : Dividend := ⟨"F", 100, none, 5, "rub", none⟩

/-- Witness for the dividend error theorem: the upsert succeeds and persists
the row, yet the one-element batch still reports an error. -/
theorem SaveDividend_always_errors_witness :
    (SaveDividend divState divRecord).1.dividends
      = upsertDividend divState.dividends divRecord ∧
    (processDividendsSave divState [divRecord]).2.isSome = true := by
  have h := SaveDividend_always_errors divState divRecord []
  exact ⟨h.2.1 (by decide), h.2.2.1⟩

end MarketLoader
